import Mathlib

/-!
# Tic-tac-toe game state (`src/src/App.jsx`)

A shallow embedding of the game logic of the React component tree in
`App.jsx`: the outcome evaluator `calculateWinner`, the click handler
`Board.handleClick`, and the three state transitions of `Game`
(`handlePlay`, `jumpTo`, `resetGame`), followed by theorems about them.

JavaScript arrays are modelled with the part of their semantics the
handlers exercise: reading an absent slot gives `undefined`, writing past
the end grows the array, and a key that is not an array index (a negative
integer, or one above `2^32 - 2`) is an ordinary property which `slice`
does not copy. The score counters are JavaScript numbers that start at 0
and only ever have 1 added, so they are modelled as the integers
`0 .. 2^53` with the addition that is exact below `2^53` and rounds
`2^53 + 1` back to `2^53`.
-/

namespace TicTacToe

/-! ## Data model -/

/-- The two player marks, the strings `'X'` and `'O'`. -/
inductive Mark where
  | X
  | O
  deriving DecidableEq, Repr

/-- What a slot of a `squares` array can read as: `undefined` (an absent
slot, that is a hole or an index past the end), `null` (an empty cell), or
a mark. Only the marks are truthy. -/
inductive Cell where
  | undefined
  | null
  | mark (m : Mark)
  deriving DecidableEq, Repr

/-- A `squares` array: its indexed slots, and the own properties whose
key is an integer that is not an array index. -/
structure Squares where
  elems : List Cell
  props : List (Int × Mark)
  deriving DecidableEq, Repr

/-- The value `calculateWinner` returns: `null`, the string `'draw'`, or
the mark read from the first completed line. -/
inductive Outcome where
  | null
  | draw
  | mark (m : Mark)
  deriving DecidableEq, Repr

/-- The value `2^53`, where a counter stops growing: adding 1 to a JS number
below it is exact, while `2^53 + 1` is not a double and rounds back (ties
to even) to `2^53`. -/
def maxCount : Nat := 9007199254740992

/-- A score counter: a JS number that starts at 0 and only ever has 1 added
to it, hence an integer in `0 .. 2^53`. -/
abbrev Count := Fin (maxCount + 1)

/-- The `scores` object `{ x, o, ties }`. -/
structure Scores where
  x : Count
  o : Count
  ties : Count
  deriving DecidableEq, Repr

/-- The three `useState` cells of `Game`. -/
structure GameState where
  history : List Squares
  currentMove : Int
  scores : Scores
  deriving DecidableEq, Repr

/-! ## JavaScript array primitives -/

/-- JS truthiness of a cell value. -/
def Cell.truthy : Cell → Bool
  | Cell.mark _ => true
  | _ => false

/-- An integer key is an array index when it lies in `0 .. 2^32 - 2`. -/
def isArrayIndex (k : Int) : Bool :=
  decide (0 ≤ k) && decide (k < 4294967295)

/-- Reading `squares[a]` for a literal index `a`. -/
def Squares.at (s : Squares) (a : Nat) : Cell :=
  s.elems.getD a Cell.undefined

/-- Reading `squares[k]` for an integer key `k`. -/
def jsGet (s : Squares) (k : Int) : Cell :=
  if isArrayIndex k then s.at k.toNat
  else match s.props.lookup k with
    | some m => Cell.mark m
    | none => Cell.undefined

/-- Writing slot `n` of the indexed part: in place when the slot exists,
otherwise the array grows to length `n + 1` with holes in between. -/
def writeElem (l : List Cell) (n : Nat) (v : Cell) : List Cell :=
  if n < l.length then l.set n v
  else l ++ List.replicate (n - l.length) Cell.undefined ++ [v]

/-- The assignment `squares[k] = m` for an integer key `k`. -/
def jsSet (s : Squares) (k : Int) (m : Mark) : Squares :=
  if isArrayIndex k then { s with elems := writeElem s.elems k.toNat (Cell.mark m) }
  else { s with props := (k, m) :: s.props.filter (fun p => p.1 ≠ k) }

/-- The copy `squares.slice()`: indexed slots only. -/
def jsSlice (s : Squares) : Squares :=
  { elems := s.elems, props := [] }

/-- Reading `history[k]`: `none` stands for `undefined`. -/
def histGet (history : List Squares) (k : Int) : Option Squares :=
  if k < 0 then none else history[k.toNat]?

/-- The prefix `history.slice(0, e)`; a negative end counts from the back. -/
def sliceTo (history : List Squares) (e : Int) : List Squares :=
  if e < 0 then history.take ((history.length : Int) + e).toNat
  else history.take e.toNat

/-! ## `calculateWinner` -/

/-- The table `lines` of `calculateWinner`. -/
def lines : List (Nat × Nat × Nat) :=
  [(0, 1, 2), (3, 4, 5), (6, 7, 8),
   (0, 3, 6), (1, 4, 7), (2, 5, 8),
   (0, 4, 8), (2, 4, 6)]

/-- The `for` loop of `calculateWinner` over a table of lines: the mark of
the first line whose three cells are truthy and equal, if there is one. -/
def scanLines (squares : Squares) : List (Nat × Nat × Nat) → Option Mark
  | [] => none
  | (a, b, c) :: rest =>
    match squares.at a with
    | Cell.mark m =>
      if squares.at a = squares.at b ∧ squares.at a = squares.at c then some m
      else scanLines squares rest
    | _ => scanLines squares rest

/-- The body of `calculateWinner` with the table of lines as a parameter. -/
def calculateWinnerOn (table : List (Nat × Nat × Nat)) (squares : Squares) : Outcome :=
  match scanLines squares table with
  | some m => Outcome.mark m
  | none =>
    if squares.elems.all (fun square => square != Cell.null) then Outcome.draw
    else Outcome.null

/-- The function `calculateWinner(squares)`. -/
def calculateWinner (squares : Squares) : Outcome :=
  calculateWinnerOn lines squares

/-! ## `Board.handleClick` and the `Game` transitions -/

/-- The all-null board `Array(9).fill(null)`. -/
def emptyBoard : Squares :=
  { elems := List.replicate 9 Cell.null, props := [] }

/-- The initial state of `Game`. -/
def GameState.initial : GameState :=
  { history := [emptyBoard], currentMove := 0, scores := { x := 0, o := 0, ties := 0 } }

/-- The derived value `xIsNext = currentMove % 2 === 0`. -/
def xIsNext (g : GameState) : Bool :=
  decide (g.currentMove % 2 = 0)

/-- The derived value `currentSquares = history[currentMove]`. -/
def currentSquares (g : GameState) : Option Squares :=
  histGet g.history g.currentMove

/-- The JS number addition `n + 1` on a counter: exact below `2^53`, and
`2^53` again at `2^53`. -/
def addOne (n : Count) : Count :=
  if h : n.val < maxCount then ⟨n.val + 1, by omega⟩ else n

/-- The function `updateScores(winner)`. -/
def updateScores (winner : Outcome) (prevScores : Scores) : Scores :=
  match winner with
  | Outcome.draw => { prevScores with ties := addOne prevScores.ties }
  | Outcome.mark Mark.X => { prevScores with x := addOne prevScores.x }
  | Outcome.mark Mark.O => { prevScores with o := addOne prevScores.o }
  | Outcome.null => prevScores

/-- The function `jumpTo(nextMove)`. -/
def jumpTo (g : GameState) (nextMove : Int) : GameState :=
  { g with currentMove := nextMove }

/-- The function `handlePlay(nextSquares)`. -/
def handlePlay (g : GameState) (nextSquares : Squares) : GameState :=
  let winner := calculateWinner nextSquares
  let scores := if winner ≠ Outcome.null then updateScores winner g.scores else g.scores
  let nextHistory := sliceTo g.history (g.currentMove + 1) ++ [nextSquares]
  { history := nextHistory, currentMove := (nextHistory.length : Int) - 1, scores := scores }

/-- The function `resetGame()`. -/
def resetGame (g : GameState) : GameState :=
  { g with history := [emptyBoard], currentMove := 0 }

/-- The function `handleClick(i)` of `Board`, given its props `xIsNext` and
`squares`: `none` when it returns early, otherwise the array it passes to
`onPlay`. -/
def handleClick (xNext : Bool) (squares : Squares) (i : Int) : Option Squares :=
  if (jsGet squares i).truthy || calculateWinner squares != Outcome.null then none
  else some (jsSet (jsSlice squares) i (if xNext then Mark.X else Mark.O))

/-- A click on cell `i`: `handleClick(i)` of the `Board` rendered with
`squares = currentSquares`, whose `onPlay` is `handlePlay`. The result is
`none` when `currentSquares` is `undefined`, where reading `squares[i]`
throws a `TypeError`. -/
def playMove (g : GameState) (i : Int) : Option GameState :=
  match currentSquares g with
  | none => none
  | some squares =>
    match handleClick (xIsNext g) squares i with
    | none => some g
    | some nextSquares => some (handlePlay g nextSquares)

/-- The operations of the game. -/
inductive Op where
  | play (i : Int)
  | jump (move : Int)
  | reset
  deriving DecidableEq, Repr

/-- The render that follows a state update: `Board` calls
`calculateWinner(squares)` with `squares = currentSquares`, which throws a
`TypeError` (result `none`) when `currentSquares` is `undefined`. -/
def rendered (g : GameState) : Option GameState :=
  if (currentSquares g).isSome then some g else none

/-- One operation applied to a state, followed by the render. -/
def step (g : GameState) : Op → Option GameState
  | Op.play i => (playMove g i).bind rendered
  | Op.jump move => rendered (jumpTo g move)
  | Op.reset => rendered (resetGame g)

/-- A sequence of operations applied from left to right. -/
def run (g : GameState) : List Op → Option GameState
  | [] => some g
  | op :: ops =>
    match step g op with
    | none => none
    | some g' => run g' ops

/-- A sequence of clicks. -/
def plays (is : List Int) : List Op :=
  is.map Op.play

/-! ## Predicates used in the statements -/

/-- The other player's mark. -/
def Mark.other : Mark → Mark
  | Mark.X => Mark.O
  | Mark.O => Mark.X

/-- All three cells of line `l` of `squares` hold the mark `m`. -/
def lineFilled (squares : Squares) (m : Mark) (l : Nat × Nat × Nat) : Prop :=
  squares.at l.1 = Cell.mark m ∧ squares.at l.2.1 = Cell.mark m ∧ squares.at l.2.2 = Cell.mark m

instance (squares : Squares) (m : Mark) (l : Nat × Nat × Nat) :
    Decidable (lineFilled squares m l) := by
  unfold lineFilled; infer_instance

instance (p : Mark → Prop) [DecidablePred p] : Decidable (∀ m, p m) :=
  decidable_of_iff (p Mark.X ∧ p Mark.O)
    ⟨fun h m => by cases m; exacts [h.1, h.2], fun h => ⟨h _, h _⟩⟩

/-- The mark placed by a click when the pointer is `currentMove`. -/
def markToPlay (g : GameState) : Mark :=
  if g.currentMove % 2 = 0 then Mark.X else Mark.O

/-- The state after the winning sequence 0, 1, 3, 4, 6 of scenario A. -/
def scenarioA : GameState :=
  { history :=
      [emptyBoard,
       ⟨[Cell.mark Mark.X, Cell.null, Cell.null, Cell.null, Cell.null, Cell.null,
         Cell.null, Cell.null, Cell.null], []⟩,
       ⟨[Cell.mark Mark.X, Cell.mark Mark.O, Cell.null, Cell.null, Cell.null, Cell.null,
         Cell.null, Cell.null, Cell.null], []⟩,
       ⟨[Cell.mark Mark.X, Cell.mark Mark.O, Cell.null, Cell.mark Mark.X, Cell.null,
         Cell.null, Cell.null, Cell.null, Cell.null], []⟩,
       ⟨[Cell.mark Mark.X, Cell.mark Mark.O, Cell.null, Cell.mark Mark.X, Cell.mark Mark.O,
         Cell.null, Cell.null, Cell.null, Cell.null], []⟩,
       ⟨[Cell.mark Mark.X, Cell.mark Mark.O, Cell.null, Cell.mark Mark.X, Cell.mark Mark.O,
         Cell.null, Cell.mark Mark.X, Cell.null, Cell.null], []⟩],
    currentMove := 5,
    scores := { x := 1, o := 0, ties := 0 } }

/-- The state before the last move of scenario B: eight marks placed in the
order 0, 1, 2, 4, 3, 5, 7, 6. -/
def scenarioB8 : GameState :=
  { history :=
      [emptyBoard,
       ⟨[Cell.mark Mark.X, Cell.null, Cell.null, Cell.null, Cell.null, Cell.null,
         Cell.null, Cell.null, Cell.null], []⟩,
       ⟨[Cell.mark Mark.X, Cell.mark Mark.O, Cell.null, Cell.null, Cell.null, Cell.null,
         Cell.null, Cell.null, Cell.null], []⟩,
       ⟨[Cell.mark Mark.X, Cell.mark Mark.O, Cell.mark Mark.X, Cell.null, Cell.null,
         Cell.null, Cell.null, Cell.null, Cell.null], []⟩,
       ⟨[Cell.mark Mark.X, Cell.mark Mark.O, Cell.mark Mark.X, Cell.null, Cell.mark Mark.O,
         Cell.null, Cell.null, Cell.null, Cell.null], []⟩,
       ⟨[Cell.mark Mark.X, Cell.mark Mark.O, Cell.mark Mark.X, Cell.mark Mark.X,
         Cell.mark Mark.O, Cell.null, Cell.null, Cell.null, Cell.null], []⟩,
       ⟨[Cell.mark Mark.X, Cell.mark Mark.O, Cell.mark Mark.X, Cell.mark Mark.X,
         Cell.mark Mark.O, Cell.mark Mark.O, Cell.null, Cell.null, Cell.null], []⟩,
       ⟨[Cell.mark Mark.X, Cell.mark Mark.O, Cell.mark Mark.X, Cell.mark Mark.X,
         Cell.mark Mark.O, Cell.mark Mark.O, Cell.null, Cell.mark Mark.X, Cell.null], []⟩,
       ⟨[Cell.mark Mark.X, Cell.mark Mark.O, Cell.mark Mark.X, Cell.mark Mark.X,
         Cell.mark Mark.O, Cell.mark Mark.O, Cell.mark Mark.O, Cell.mark Mark.X,
         Cell.null], []⟩],
    currentMove := 8,
    scores := { x := 0, o := 0, ties := 0 } }

/-- The sum `x + o + ties`. -/
def Scores.total (s : Scores) : Nat :=
  s.x.val + s.o.val + s.ties.val

/-- The state before the last move of scenario A, with the counter `x`
already at `2^53`. -/
def scenarioA4Full : GameState :=
  { history := scenarioA.history.take 5, currentMove := 4,
    scores := { x := 9007199254740992, o := 0, ties := 0 } }

/-- The state before the last move of scenario A: four marks placed in the
order 0, 1, 3, 4. -/
def scenarioA4 : GameState :=
  { history := scenarioA.history.take 5, currentMove := 4,
    scores := { x := 0, o := 0, ties := 0 } }

/-- A 9-cell board: nine slots, each `null` or a mark, and no property
besides the slots. -/
def isBoard (b : Squares) : Prop :=
  b.elems.length = 9 ∧ b.props = [] ∧ ∀ c ∈ b.elems, c ≠ Cell.undefined

/-- Board `b'` differs from `b` in exactly one cell, which is `null` in `b`
and holds a mark in `b'`. -/
def oneMarkAdded (b b' : Squares) : Prop :=
  ∃ j : Nat, j < 9 ∧ b.at j = Cell.null ∧ (∃ m, b'.at j = Cell.mark m) ∧
    ∀ k : Nat, k ≠ j → b'.at k = b.at k

/-- The states reachable from the initial state by clicks on the cells
`0..8`, jumps to a move in range, and resets. -/
inductive Reachable : GameState → Prop where
  | init : Reachable GameState.initial
  | play (g g' : GameState) (i : Int) :
      Reachable g → 0 ≤ i → i ≤ 8 → playMove g i = some g' → Reachable g'
  | jump (g : GameState) (move : Int) :
      Reachable g → 0 ≤ move → move < g.history.length → Reachable (jumpTo g move)
  | reset (g : GameState) : Reachable g → Reachable (resetGame g)

/-- The invariant carried along reachable states: the history starts with
the empty board, the pointer is in range, every snapshot is a 9-cell board,
and each snapshot with a successor is undecided and one mark short of it. -/
def Inv (g : GameState) : Prop :=
  g.history[0]? = some emptyBoard ∧
  0 ≤ g.currentMove ∧ g.currentMove < g.history.length ∧
  (∀ b ∈ g.history, isBoard b) ∧
  ∀ (n : Nat) (b b' : Squares), g.history[n]? = some b → g.history[n + 1]? = some b' →
    calculateWinner b = Outcome.null ∧ oneMarkAdded b b'

/-! ## The outcome evaluator -/

/-- The loop returns `m` when it reaches a line filled with `m` and no line
before it is filled with the other mark. -/
theorem scanLines_first_filled (squares : Squares) (m : Mark) (l : Nat × Nat × Nat)
    (post : List (Nat × Nat × Nat)) (hl : lineFilled squares m l) :
    ∀ pre : List (Nat × Nat × Nat),
      (∀ p ∈ pre, ¬ lineFilled squares m.other p) →
      scanLines squares (pre ++ l :: post) = some m := by
  intro pre
  induction pre with
  | nil =>
    intro _
    obtain ⟨a, b, c⟩ := l
    obtain ⟨ha, hb, hc⟩ := hl
    simp only [] at ha hb hc
    simp [scanLines, ha, hb, hc]
  | cons p pre ih =>
    intro hpre
    have hrest := ih (fun q hq => hpre q (List.mem_cons_of_mem _ hq))
    obtain ⟨a, b, c⟩ := p
    have hp := hpre (a, b, c) (List.mem_cons_self _ _)
    simp only [List.cons_append, scanLines]
    cases ha : squares.at a with
    | undefined => simpa using hrest
    | null => simpa using hrest
    | mark m' =>
      simp only []
      split
      · next heq =>
        obtain ⟨hb, hc⟩ := heq
        have hm : m' = m := by
          by_contra hne
          apply hp
          have ho : m.other = m' := by
            cases m <;> cases m' <;> simp_all [Mark.other]
          rw [ho]
          exact ⟨ha, hb.symm, hc.symm⟩
        rw [hm]
      · exact hrest

/-- The loop finds nothing exactly when no line of the table is filled. -/
theorem scanLines_eq_none (squares : Squares) :
    ∀ table : List (Nat × Nat × Nat),
      scanLines squares table = none ↔ ∀ l ∈ table, ∀ m, ¬ lineFilled squares m l := by
  intro table
  induction table with
  | nil => simp [scanLines]
  | cons p table ih =>
    obtain ⟨a, b, c⟩ := p
    simp only [scanLines, List.mem_cons, forall_eq_or_imp]
    cases ha : squares.at a with
    | undefined =>
      simp only [ih]
      constructor
      · intro h
        refine ⟨fun m hm => ?_, h⟩
        have := hm.1
        simp only [] at this
        rw [ha] at this
        cases this
      · exact fun h => h.2
    | null =>
      simp only [ih]
      constructor
      · intro h
        refine ⟨fun m hm => ?_, h⟩
        have := hm.1
        simp only [] at this
        rw [ha] at this
        cases this
      · exact fun h => h.2
    | mark m' =>
      simp only []
      split
      · next heq =>
        obtain ⟨hb, hc⟩ := heq
        simp only [false_iff, reduceCtorEq]
        intro h
        exact h.1 m' ⟨ha, hb.symm, hc.symm⟩
      · next hne =>
        rw [ih]
        constructor
        · intro h
          refine ⟨fun m hm => ?_, h⟩
          apply hne
          obtain ⟨h1, h2, h3⟩ := hm
          simp only [] at h1 h2 h3
          rw [ha] at h1
          cases h1
          exact ⟨h2.symm, h3.symm⟩
        · exact fun h => h.2

/-- When the loop finds a mark, some line of the table is filled with it. -/
theorem scanLines_eq_some (squares : Squares) (m : Mark) :
    ∀ table : List (Nat × Nat × Nat),
      scanLines squares table = some m → ∃ l ∈ table, lineFilled squares m l := by
  intro table
  induction table with
  | nil => simp [scanLines]
  | cons p table ih =>
    obtain ⟨a, b, c⟩ := p
    intro h
    simp only [scanLines] at h
    cases ha : squares.at a with
    | undefined =>
      rw [ha] at h
      obtain ⟨l, hl, hf⟩ := ih h
      exact ⟨l, List.mem_cons_of_mem _ hl, hf⟩
    | null =>
      rw [ha] at h
      obtain ⟨l, hl, hf⟩ := ih h
      exact ⟨l, List.mem_cons_of_mem _ hl, hf⟩
    | mark m' =>
      rw [ha] at h
      simp only [] at h
      split at h
      · next heq =>
        obtain ⟨hb, hc⟩ := heq
        have hm : m' = m := by simpa using h
        subst hm
        exact ⟨(a, b, c), List.mem_cons_self _ _, ha, hb.symm, hc.symm⟩
      · obtain ⟨l, hl, hf⟩ := ih h
        exact ⟨l, List.mem_cons_of_mem _ hl, hf⟩

/-- C1, as stated, fails: on the 9-cell board `X X X / O O O / _ _ _` the
line `(3, 4, 5)` holds `O` in all three cells, yet `calculateWinner` returns
`X`, the mark of the row checked first. -/
theorem calculateWinner_two_filled_lines :
    (⟨[Cell.mark Mark.X, Cell.mark Mark.X, Cell.mark Mark.X,
       Cell.mark Mark.O, Cell.mark Mark.O, Cell.mark Mark.O,
       Cell.null, Cell.null, Cell.null], []⟩ : Squares).elems.length = 9 ∧
    (3, 4, 5) ∈ lines ∧
    lineFilled ⟨[Cell.mark Mark.X, Cell.mark Mark.X, Cell.mark Mark.X,
       Cell.mark Mark.O, Cell.mark Mark.O, Cell.mark Mark.O,
       Cell.null, Cell.null, Cell.null], []⟩ Mark.O (3, 4, 5) ∧
    calculateWinner ⟨[Cell.mark Mark.X, Cell.mark Mark.X, Cell.mark Mark.X,
       Cell.mark Mark.O, Cell.mark Mark.O, Cell.mark Mark.O,
       Cell.null, Cell.null, Cell.null], []⟩ = Outcome.mark Mark.X ∧
    calculateWinner ⟨[Cell.mark Mark.X, Cell.mark Mark.X, Cell.mark Mark.X,
       Cell.mark Mark.O, Cell.mark Mark.O, Cell.mark Mark.O,
       Cell.null, Cell.null, Cell.null], []⟩ ≠ Outcome.mark Mark.O := by
  decide

/-- C1, amended: for every 9-cell board, every line `l` of the table (split
as the lines checked before it, `l`, and the lines after it) and every mark
`m`, if all three cells of `l` hold `m` and no line checked before `l` is
filled with the other mark, then `calculateWinner` returns `m`. -/
theorem calculateWinner_filled_line (b : Squares) (_hlen : b.elems.length = 9)
    (pre post : List (Nat × Nat × Nat)) (l : Nat × Nat × Nat) (m : Mark)
    (hsplit : lines = pre ++ l :: post)
    (hl : lineFilled b m l)
    (hpre : ∀ p ∈ pre, ¬ lineFilled b m.other p) :
    calculateWinner b = Outcome.mark m := by
  unfold calculateWinner calculateWinnerOn
  rw [hsplit, scanLines_first_filled b m l post hl pre hpre]

/-- Witness for C1 amended: the middle row filled with `O`, the top row not
filled. -/
theorem calculateWinner_filled_line_witness :
    calculateWinner ⟨[Cell.mark Mark.X, Cell.mark Mark.X, Cell.null,
       Cell.mark Mark.O, Cell.mark Mark.O, Cell.mark Mark.O,
       Cell.mark Mark.X, Cell.null, Cell.null], []⟩ = Outcome.mark Mark.O :=
  calculateWinner_filled_line _ (by decide) [(0, 1, 2)]
    [(6, 7, 8), (0, 3, 6), (1, 4, 7), (2, 5, 8), (0, 4, 8), (2, 4, 6)] (3, 4, 5) Mark.O
    (by decide) (by decide) (by decide)

/-- C2: for every 9-cell board on which no line is filled with a mark,
`calculateWinner` returns `'draw'` if no cell is `null` and returns `null`
if some cell is `null`; on the all-null board it returns `null`. -/
theorem calculateWinner_no_filled_line (b : Squares) (_hlen : b.elems.length = 9)
    (hno : ∀ l ∈ lines, ∀ m, ¬ lineFilled b m l) :
    ((∀ c ∈ b.elems, c ≠ Cell.null) → calculateWinner b = Outcome.draw) ∧
    ((∃ c ∈ b.elems, c = Cell.null) → calculateWinner b = Outcome.null) ∧
    calculateWinner emptyBoard = Outcome.null := by
  have hscan : scanLines b lines = none := (scanLines_eq_none b lines).2 hno
  refine ⟨?_, ?_, by decide⟩
  · intro hall
    unfold calculateWinner calculateWinnerOn
    rw [hscan]
    have : b.elems.all (fun square => square != Cell.null) = true := by
      rw [List.all_eq_true]
      intro c hc
      simpa using hall c hc
    simp [this]
  · rintro ⟨c, hc, hnull⟩
    unfold calculateWinner calculateWinnerOn
    rw [hscan]
    have : ¬ b.elems.all (fun square => square != Cell.null) = true := by
      rw [List.all_eq_true]
      intro h
      have := h c hc
      simp [hnull] at this
    simp [this]

/-- Witness for C2: the full board of scenario B (no line filled) is a
draw. -/
theorem calculateWinner_no_filled_line_witness :
    calculateWinner ⟨[Cell.mark Mark.X, Cell.mark Mark.O, Cell.mark Mark.X,
       Cell.mark Mark.X, Cell.mark Mark.O, Cell.mark Mark.O,
       Cell.mark Mark.O, Cell.mark Mark.X, Cell.mark Mark.X], []⟩ = Outcome.draw :=
  (calculateWinner_no_filled_line _ (by decide) (by decide)).1 (by decide)

/-! ## Array primitives: basic facts -/

theorem writeElem_length_of_lt (l : List Cell) (n : Nat) (v : Cell) (h : n < l.length) :
    (writeElem l n v).length = l.length := by
  simp [writeElem, h]

theorem writeElem_length_of_ge (l : List Cell) (n : Nat) (v : Cell) (h : l.length ≤ n) :
    (writeElem l n v).length = n + 1 := by
  have : ¬ n < l.length := by omega
  simp [writeElem, this]
  omega

theorem writeElem_getD_self (l : List Cell) (n : Nat) (v : Cell) :
    (writeElem l n v).getD n Cell.undefined = v := by
  unfold writeElem
  split
  · next h => simp [List.getD_eq_getElem?_getD, List.getElem?_set, h]
  · next h =>
    have hlen : (l ++ List.replicate (n - l.length) Cell.undefined).length = n := by
      simp; omega
    rw [List.getD_eq_getElem?_getD, List.getElem?_append_right (by omega)]
    simp [hlen]

theorem writeElem_getD_ne (l : List Cell) (n k : Nat) (v : Cell) (hk : k ≠ n) :
    (writeElem l n v).getD k Cell.undefined = l.getD k Cell.undefined := by
  unfold writeElem
  split
  · next h =>
    simp [List.getD_eq_getElem?_getD, List.getElem?_set, h, Ne.symm hk]
  · next h =>
    simp only [List.getD_eq_getElem?_getD]
    by_cases h1 : k < l.length
    · rw [List.append_assoc, List.getElem?_append_left h1]
    · have hl : l[k]? = none := List.getElem?_eq_none (by omega)
      rw [hl]
      by_cases h2 : k < n
      · rw [List.getElem?_append_left (by simp; omega),
          List.getElem?_append_right (by omega)]
        rw [List.getElem?_replicate]
        split <;> rfl
      · rw [List.getElem?_eq_none (by simp; omega)]

theorem histGet_eq_some {history : List Squares} {k : Int} {b : Squares}
    (h : histGet history k = some b) :
    0 ≤ k ∧ k < history.length ∧ history[k.toNat]? = some b := by
  unfold histGet at h
  split at h
  · cases h
  · next hk =>
    have hlt : k.toNat < history.length := by
      by_contra hge
      rw [List.getElem?_eq_none (by omega)] at h
      cases h
    refine ⟨by omega, by omega, h⟩

theorem histGet_in_range (history : List Squares) (k : Int)
    (h0 : 0 ≤ k) (h1 : k < history.length) :
    ∃ b, histGet history k = some b := by
  unfold histGet
  have : ¬ k < 0 := by omega
  rw [if_neg this]
  have hlt : k.toNat < history.length := by omega
  exact ⟨history[k.toNat], List.getElem?_eq_getElem hlt⟩

theorem sliceTo_succ (history : List Squares) (k : Int) (h0 : 0 ≤ k) :
    sliceTo history (k + 1) = history.take (k.toNat + 1) := by
  unfold sliceTo
  have : ¬ k + 1 < 0 := by omega
  rw [if_neg this]
  congr 1
  omega

/-! ## Clicks -/

theorem handleClick_accept (xNext : Bool) (b : Squares) (i : Int)
    (hfalsy : (jsGet b i).truthy = false) (hnull : calculateWinner b = Outcome.null) :
    handleClick xNext b i = some (jsSet (jsSlice b) i (if xNext then Mark.X else Mark.O)) := by
  simp [handleClick, hfalsy, hnull]

theorem handleClick_reject (xNext : Bool) (b : Squares) (i : Int)
    (h : (jsGet b i).truthy = true ∨ calculateWinner b ≠ Outcome.null) :
    handleClick xNext b i = none := by
  unfold handleClick
  rcases h with h | h
  · simp [h]
  · simp [h]

theorem handleClick_some {xNext : Bool} {b next : Squares} {i : Int}
    (h : handleClick xNext b i = some next) :
    (jsGet b i).truthy = false ∧ calculateWinner b = Outcome.null ∧
      next = jsSet (jsSlice b) i (if xNext then Mark.X else Mark.O) := by
  unfold handleClick at h
  split at h
  · cases h
  · next hc =>
    simp only [Bool.or_eq_true, not_or, Bool.not_eq_true, bne_iff_ne, ne_eq,
      Decidable.not_not] at hc
    refine ⟨hc.1, ?_, ?_⟩
    · simpa using hc.2
    · simpa using h.symm

theorem xIsNext_mark (g : GameState) :
    (if xIsNext g then Mark.X else Mark.O) = markToPlay g := by
  unfold xIsNext markToPlay
  by_cases h : g.currentMove % 2 = 0 <;> simp [h]

theorem handlePlay_history (g : GameState) (next : Squares) (h0 : 0 ≤ g.currentMove) :
    (handlePlay g next).history = g.history.take (g.currentMove.toNat + 1) ++ [next] := by
  simp [handlePlay, sliceTo_succ _ _ h0]

theorem handlePlay_currentMove (g : GameState) (next : Squares)
    (h0 : 0 ≤ g.currentMove) (h1 : g.currentMove < g.history.length) :
    (handlePlay g next).currentMove = g.currentMove + 1 := by
  simp only [handlePlay, sliceTo_succ _ _ h0, List.length_append, List.length_take,
    List.length_singleton]
  omega

/-- C3: in a state whose pointer is in range, a click on a cell `i` in `0..8`
that is `null` on the viewed board `b`, with `calculateWinner b` null, is
accepted: the new history is the first `currentMove + 1` snapshots followed
by `nextBoard`, the new pointer is the last index (the old pointer plus
one), `nextBoard[i]` is `X` for an even old pointer and `O` for an odd one,
every other slot of `nextBoard` equals that of `b`, and the snapshots at
indices `0..currentMove` are unchanged. -/
theorem playMove_accepted (g : GameState) (i : Int) (b : Squares)
    (hlo : 0 ≤ g.currentMove) (hhi : g.currentMove < g.history.length)
    (hb : currentSquares g = some b)
    (hi0 : 0 ≤ i) (hi8 : i ≤ 8)
    (hempty : jsGet b i = Cell.null) (hnull : calculateWinner b = Outcome.null) :
    ∃ g' nextBoard,
      playMove g i = some g' ∧
      g'.history = g.history.take (g.currentMove.toNat + 1) ++ [nextBoard] ∧
      g'.history.length = g.currentMove.toNat + 2 ∧
      g'.currentMove = (g'.history.length : Int) - 1 ∧
      g'.currentMove = g.currentMove + 1 ∧
      jsGet nextBoard i = Cell.mark (if g.currentMove % 2 = 0 then Mark.X else Mark.O) ∧
      (∀ k : Nat, (k : Int) ≠ i → nextBoard.at k = b.at k) ∧
      nextBoard.elems.length = b.elems.length ∧
      (∀ k : Nat, k ≤ g.currentMove.toNat → g'.history[k]? = g.history[k]?) := by
  have hidx : isArrayIndex i = true := by simp [isArrayIndex]; omega
  have hfalsy : (jsGet b i).truthy = false := by rw [hempty]; rfl
  have hclick := handleClick_accept (xIsNext g) b i hfalsy hnull
  rw [xIsNext_mark] at hclick
  have hlt : i.toNat < b.elems.length := by
    by_contra hge
    have : jsGet b i = Cell.undefined := by
      simp only [jsGet, hidx, if_true, Squares.at, List.getD_eq_getElem?_getD]
      rw [List.getElem?_eq_none (by omega)]
      rfl
    rw [this] at hempty
    cases hempty
  refine ⟨handlePlay g (jsSet (jsSlice b) i (markToPlay g)),
    jsSet (jsSlice b) i (markToPlay g), ?_, ?_, ?_, ?_, ?_, ?_, ?_, ?_, ?_⟩
  · simp [playMove, hb, hclick]
  · exact handlePlay_history g _ hlo
  · rw [handlePlay_history g _ hlo]
    simp only [List.length_append, List.length_take, List.length_singleton]
    omega
  · simp [handlePlay]
  · exact handlePlay_currentMove g _ hlo hhi
  · simp only [jsGet, jsSet, hidx, if_true, Squares.at, jsSlice, markToPlay]
    exact writeElem_getD_self _ _ _
  · intro k hk
    simp only [jsSet, hidx, if_true, Squares.at, jsSlice]
    exact writeElem_getD_ne _ _ _ _ (by omega)
  · simp only [jsSet, hidx, if_true, jsSlice]
    exact writeElem_length_of_lt _ _ _ hlt
  · intro k hk
    rw [handlePlay_history g _ hlo]
    have hk1 : k < (List.take (g.currentMove.toNat + 1) g.history).length := by
      simp only [List.length_take]
      omega
    rw [List.getElem?_append_left hk1, List.getElem?_take_of_lt (by omega)]

/-- Witness for C3: from the state of scenario A viewed at move 2 (after
`jumpTo(2)`), a click on cell 5 truncates the three later snapshots and
appends the board with `X` on cell 5. -/
theorem playMove_accepted_witness :
    ∃ g' nextBoard,
      playMove (jumpTo scenarioA 2) 5 = some g' ∧
      g'.history = (jumpTo scenarioA 2).history.take
        ((jumpTo scenarioA 2).currentMove.toNat + 1) ++ [nextBoard] ∧
      g'.history.length = (jumpTo scenarioA 2).currentMove.toNat + 2 ∧
      g'.currentMove = (g'.history.length : Int) - 1 ∧
      g'.currentMove = (jumpTo scenarioA 2).currentMove + 1 ∧
      jsGet nextBoard 5 =
        Cell.mark (if (jumpTo scenarioA 2).currentMove % 2 = 0 then Mark.X else Mark.O) ∧
      (∀ k : Nat, (k : Int) ≠ 5 → nextBoard.at k =
        (⟨[Cell.mark Mark.X, Cell.mark Mark.O, Cell.null, Cell.null, Cell.null, Cell.null,
          Cell.null, Cell.null, Cell.null], []⟩ : Squares).at k) ∧
      nextBoard.elems.length = 9 ∧
      (∀ k : Nat, k ≤ (jumpTo scenarioA 2).currentMove.toNat →
        g'.history[k]? = (jumpTo scenarioA 2).history[k]?) :=
  playMove_accepted (jumpTo scenarioA 2) 5
    ⟨[Cell.mark Mark.X, Cell.mark Mark.O, Cell.null, Cell.null, Cell.null, Cell.null,
      Cell.null, Cell.null, Cell.null], []⟩
    (by decide) (by decide) (by decide) (by decide) (by decide) (by decide) (by decide)

/-- C4: a click on any cell `i` (in particular each of `0..8`) is a no-op,
leaving history, pointer and scores as they are, when the viewed board `b`
holds a mark at `i` or `calculateWinner b` is not null. -/
theorem playMove_rejected (g : GameState) (i : Int) (b : Squares)
    (hb : currentSquares g = some b)
    (h : (∃ m, jsGet b i = Cell.mark m) ∨ calculateWinner b ≠ Outcome.null) :
    playMove g i = some g := by
  have hr : handleClick (xIsNext g) b i = none := by
    apply handleClick_reject
    rcases h with ⟨m, hm⟩ | h
    · left; rw [hm]; rfl
    · right; exact h
  simp [playMove, hb, hr]

/-- Witness for C4: after the win of scenario A, a click on the free cell 2
changes nothing. -/
theorem playMove_rejected_witness : playMove scenarioA 2 = some scenarioA :=
  playMove_rejected scenarioA 2
    ⟨[Cell.mark Mark.X, Cell.mark Mark.O, Cell.null, Cell.mark Mark.X, Cell.mark Mark.O,
      Cell.null, Cell.mark Mark.X, Cell.null, Cell.null], []⟩
    (by decide) (Or.inr (by decide))

/-! ## Scoring -/

theorem run_scenarioA : run GameState.initial (plays [0, 1, 3, 4, 6]) = some scenarioA := by
  decide

theorem run_scenarioB8 :
    run GameState.initial (plays [0, 1, 2, 4, 3, 5, 7, 6]) = some scenarioB8 := by
  decide

theorem addOne_of_lt (n : Count) (h : n.val < maxCount) : (addOne n).val = n.val + 1 := by
  simp [addOne, h]

theorem addOne_of_eq (n : Count) (h : n.val = maxCount) : addOne n = n := by
  have : ¬ n.val < maxCount := by omega
  simp [addOne, this]

theorem addOne_bounds (n : Count) : n.val ≤ (addOne n).val ∧ (addOne n).val ≤ n.val + 1 := by
  by_cases h : n.val < maxCount
  · rw [addOne_of_lt n h]; omega
  · have he : n.val = maxCount := by
      have := n.isLt
      omega
    rw [addOne_of_eq n he]; omega

/-- C5, as stated, fails at a counter that has reached `2^53`: in the state
before the last move of scenario A with `scores.x = 2^53`, the click on
cell 6 is accepted and `calculateWinner` of the new board is `X`, yet
`scores.x` is still `2^53` afterwards, not `2^53 + 1`. -/
theorem playMove_scores_saturated :
    scenarioA4Full.scores.x.val = 9007199254740992 ∧
    (currentSquares scenarioA4Full).bind
        (fun b => handleClick (xIsNext scenarioA4Full) b 6) =
      some ⟨[Cell.mark Mark.X, Cell.mark Mark.O, Cell.null, Cell.mark Mark.X,
        Cell.mark Mark.O, Cell.null, Cell.mark Mark.X, Cell.null, Cell.null], []⟩ ∧
    calculateWinner ⟨[Cell.mark Mark.X, Cell.mark Mark.O, Cell.null, Cell.mark Mark.X,
        Cell.mark Mark.O, Cell.null, Cell.mark Mark.X, Cell.null, Cell.null], []⟩ =
      Outcome.mark Mark.X ∧
    (playMove scenarioA4Full 6).map (fun g => g.scores.x.val) = some 9007199254740992 ∧
    (playMove scenarioA4Full 6).map (fun g => g.scores.x.val) ≠
      some (scenarioA4Full.scores.x.val + 1) := by
  decide

/-- C5, amended: an accepted click (`handleClick` passes `nextBoard` to
`handlePlay`) returns a state in which, when `calculateWinner nextBoard` is
`X`, the counter `x` has grown by exactly one if it was below `2^53` and is
unchanged if it was `2^53`, with `o` and `ties` unchanged; likewise `o` when
it is `O` and `ties` when it is `'draw'`; when it is null, `scores` is
unchanged. -/
theorem playMove_scores (g : GameState) (i : Int) (b nextBoard : Squares)
    (hb : currentSquares g = some b)
    (hacc : handleClick (xIsNext g) b i = some nextBoard) :
    ∃ g', playMove g i = some g' ∧
      (calculateWinner nextBoard = Outcome.mark Mark.X →
        (g.scores.x.val < maxCount → g'.scores.x.val = g.scores.x.val + 1) ∧
        (g.scores.x.val = maxCount → g'.scores.x = g.scores.x) ∧
        g'.scores.o = g.scores.o ∧ g'.scores.ties = g.scores.ties) ∧
      (calculateWinner nextBoard = Outcome.mark Mark.O →
        (g.scores.o.val < maxCount → g'.scores.o.val = g.scores.o.val + 1) ∧
        (g.scores.o.val = maxCount → g'.scores.o = g.scores.o) ∧
        g'.scores.x = g.scores.x ∧ g'.scores.ties = g.scores.ties) ∧
      (calculateWinner nextBoard = Outcome.draw →
        (g.scores.ties.val < maxCount → g'.scores.ties.val = g.scores.ties.val + 1) ∧
        (g.scores.ties.val = maxCount → g'.scores.ties = g.scores.ties) ∧
        g'.scores.x = g.scores.x ∧ g'.scores.o = g.scores.o) ∧
      (calculateWinner nextBoard = Outcome.null → g'.scores = g.scores) := by
  refine ⟨handlePlay g nextBoard, by simp [playMove, hb, hacc], ?_, ?_, ?_, ?_⟩
  · intro hw
    simp only [handlePlay, hw, updateScores, ne_eq, reduceCtorEq, not_false_eq_true,
      if_true]
    exact ⟨addOne_of_lt _, addOne_of_eq _, trivial, trivial⟩
  · intro hw
    simp only [handlePlay, hw, updateScores, ne_eq, reduceCtorEq, not_false_eq_true,
      if_true]
    exact ⟨addOne_of_lt _, addOne_of_eq _, trivial, trivial⟩
  · intro hw
    simp only [handlePlay, hw, updateScores, ne_eq, reduceCtorEq, not_false_eq_true,
      if_true]
    exact ⟨addOne_of_lt _, addOne_of_eq _, trivial, trivial⟩
  · intro hw
    simp [handlePlay, hw]

/-- Witness for C5 amended: the last click of scenario A (cell 6 after 0, 1,
3, 4) gives scores `{x: 1, o: 0, ties: 0}`, and the last click of scenario B
(cell 8 after 0, 1, 2, 4, 3, 5, 7, 6) gives `{x: 0, o: 0, ties: 1}`. -/
theorem playMove_scores_witness :
    run GameState.initial (plays [0, 1, 3, 4]) = some scenarioA4 ∧
    (∃ g', playMove scenarioA4 6 = some g' ∧
      g'.scores.x.val = 1 ∧ g'.scores.o = 0 ∧ g'.scores.ties = 0) ∧
    run GameState.initial (plays [0, 1, 2, 4, 3, 5, 7, 6]) = some scenarioB8 ∧
    (∃ g', playMove scenarioB8 8 = some g' ∧
      g'.scores.ties.val = 1 ∧ g'.scores.x = 0 ∧ g'.scores.o = 0) :=
  ⟨by decide,
   (playMove_scores scenarioA4 6
      ⟨[Cell.mark Mark.X, Cell.mark Mark.O, Cell.null, Cell.mark Mark.X, Cell.mark Mark.O,
        Cell.null, Cell.null, Cell.null, Cell.null], []⟩
      ⟨[Cell.mark Mark.X, Cell.mark Mark.O, Cell.null, Cell.mark Mark.X, Cell.mark Mark.O,
        Cell.null, Cell.mark Mark.X, Cell.null, Cell.null], []⟩
      (by decide) (by decide)).imp
     (fun _ h => ⟨h.1, (h.2.1 (by decide)).1 (by decide),
        (h.2.1 (by decide)).2.2.1, (h.2.1 (by decide)).2.2.2⟩),
   by decide,
   (playMove_scores scenarioB8 8
      ⟨[Cell.mark Mark.X, Cell.mark Mark.O, Cell.mark Mark.X, Cell.mark Mark.X,
        Cell.mark Mark.O, Cell.mark Mark.O, Cell.mark Mark.O, Cell.mark Mark.X,
        Cell.null], []⟩
      ⟨[Cell.mark Mark.X, Cell.mark Mark.O, Cell.mark Mark.X, Cell.mark Mark.X,
        Cell.mark Mark.O, Cell.mark Mark.O, Cell.mark Mark.O, Cell.mark Mark.X,
        Cell.mark Mark.X], []⟩
      (by decide) (by decide)).imp
     (fun _ h => ⟨h.1, (h.2.2.2.1 (by decide)).1 (by decide),
        (h.2.2.2.1 (by decide)).2.2.1, (h.2.2.2.1 (by decide)).2.2.2⟩)⟩

/-! ## Jumps -/

/-- C7: for `0 ≤ move < history.length`, `jumpTo(move)` sets the pointer to
`move` and leaves history and scores as they are; afterwards the viewed
board is `history[move]` and X is next exactly when `move` is even. For the
current pointer, `jumpTo(currentMove)` leaves the whole state unchanged. -/
theorem jumpTo_in_range (g : GameState) (move : Int)
    (h0 : 0 ≤ move) (h1 : move < g.history.length) :
    (jumpTo g move).currentMove = move ∧
    (jumpTo g move).history = g.history ∧
    (jumpTo g move).scores = g.scores ∧
    (∃ b, g.history[move.toNat]? = some b ∧ currentSquares (jumpTo g move) = some b) ∧
    (xIsNext (jumpTo g move) = true ↔ move % 2 = 0) ∧
    jumpTo g g.currentMove = g := by
  refine ⟨rfl, rfl, rfl, ?_, ?_, rfl⟩
  · obtain ⟨b, hb⟩ := histGet_in_range g.history move h0 h1
    exact ⟨b, (histGet_eq_some hb).2.2, hb⟩
  · simp [xIsNext, jumpTo]

/-- Witness for C7 (scenario C): after the winning sequence 0, 1, 3, 4, 6,
`jumpTo(2)` views the board with only cells 0 and 1 filled, X is next, and
`scores.x` is still 1. -/
theorem jumpTo_in_range_witness :
    run GameState.initial (plays [0, 1, 3, 4, 6]) = some scenarioA ∧
    currentSquares (jumpTo scenarioA 2) =
      some ⟨[Cell.mark Mark.X, Cell.mark Mark.O, Cell.null, Cell.null, Cell.null, Cell.null,
        Cell.null, Cell.null, Cell.null], []⟩ ∧
    xIsNext (jumpTo scenarioA 2) = true ∧
    (jumpTo scenarioA 2).scores = { x := 1, o := 0, ties := 0 } ∧
    (jumpTo scenarioA 2).history = scenarioA.history :=
  ⟨by decide, by decide,
   (jumpTo_in_range scenarioA 2 (by decide) (by decide)).2.2.2.2.1.2 (by decide),
   (jumpTo_in_range scenarioA 2 (by decide) (by decide)).2.2.1,
   (jumpTo_in_range scenarioA 2 (by decide) (by decide)).2.1⟩

/-! ## Calls outside the valid range -/

theorem lines_lt : ∀ l ∈ lines, l.1 < 9 ∧ l.2.1 < 9 ∧ l.2.2 < 9 := by
  decide

theorem scanLines_congr (s t : Squares) :
    ∀ table : List (Nat × Nat × Nat),
      (∀ l ∈ table, t.at l.1 = s.at l.1 ∧ t.at l.2.1 = s.at l.2.1 ∧ t.at l.2.2 = s.at l.2.2) →
      scanLines t table = scanLines s table := by
  intro table
  induction table with
  | nil => intro _; rfl
  | cons p table ih =>
    intro h
    obtain ⟨a, b, c⟩ := p
    obtain ⟨h1, h2, h3⟩ := h (a, b, c) (List.mem_cons_self _ _)
    simp only [] at h1 h2 h3
    have hrest := ih (fun l hl => h l (List.mem_cons_of_mem _ hl))
    simp only [scanLines, h1, h2, h3, hrest]

/-- A board that agrees with an undecided board `s` on the slots `0..8` and
keeps all its slots is undecided too. -/
theorem calculateWinner_null_of_extends {s t : Squares}
    (hnull : calculateWinner s = Outcome.null)
    (hsame : ∀ n : Nat, n < 9 → t.at n = s.at n)
    (hmem : ∀ c ∈ s.elems, c ∈ t.elems) :
    calculateWinner t = Outcome.null := by
  have hscan : scanLines t lines = scanLines s lines :=
    scanLines_congr s t lines (fun l hl =>
      ⟨hsame _ (lines_lt l hl).1, hsame _ (lines_lt l hl).2.1, hsame _ (lines_lt l hl).2.2⟩)
  unfold calculateWinner calculateWinnerOn at hnull ⊢
  rw [hscan]
  cases hs : scanLines s lines with
  | some m => rw [hs] at hnull; cases hnull
  | none =>
    rw [hs] at hnull
    simp only [] at hnull ⊢
    split at hnull
    · cases hnull
    · next hall =>
      have : ¬ t.elems.all (fun square => square != Cell.null) = true := by
        intro ht
        apply hall
        rw [List.all_eq_true] at ht ⊢
        exact fun c hc => ht c (hmem c hc)
      rw [if_neg this]

theorem currentSquares_jumpTo_out_of_range (g : GameState) (k : Int)
    (hk : k < 0 ∨ (g.history.length : Int) ≤ k) : currentSquares (jumpTo g k) = none := by
  simp only [currentSquares, jumpTo, histGet]
  split
  · rfl
  · exact List.getElem?_eq_none (by omega)

/-- What `jsSet` on the copy of a 9-cell board does for a key outside
`0..8`: the key then holds the mark, every other key reads as before, and
all the slots of the board are kept. -/
theorem jsSet_out_of_range (b : Squares) (k : Int) (m : Mark)
    (hlen : b.elems.length = 9) (hprops : b.props = []) (hk : k < 0 ∨ 8 < k) :
    jsGet (jsSet (jsSlice b) k m) k = Cell.mark m ∧
    (∀ j : Int, j ≠ k → jsGet (jsSet (jsSlice b) k m) j = jsGet b j) ∧
    (∀ n : Nat, n < 9 → (jsSet (jsSlice b) k m).at n = b.at n) ∧
    (∀ c ∈ b.elems, c ∈ (jsSet (jsSlice b) k m).elems) := by
  by_cases hidx : isArrayIndex k = true
  · have hk9 : 9 ≤ k.toNat := by
      simp only [isArrayIndex, Bool.and_eq_true, decide_eq_true_eq] at hidx
      omega
    have hk0 : 0 ≤ k := by
      simp only [isArrayIndex, Bool.and_eq_true, decide_eq_true_eq] at hidx
      exact hidx.1
    refine ⟨?_, ?_, ?_, ?_⟩
    · simp only [jsGet, jsSet, hidx, if_true, Squares.at, jsSlice]
      exact writeElem_getD_self _ _ _
    · intro j hj
      by_cases hj' : isArrayIndex j = true
      · have hj0 : 0 ≤ j := by
          simp only [isArrayIndex, Bool.and_eq_true, decide_eq_true_eq] at hj'
          exact hj'.1
        simp only [jsGet, jsSet, hidx, hj', if_true, Squares.at, jsSlice]
        exact writeElem_getD_ne _ _ _ _ (by omega)
      · simp [jsGet, jsSet, hidx, hj', jsSlice, hprops]
    · intro n hn
      simp only [jsSet, hidx, if_true, Squares.at, jsSlice]
      exact writeElem_getD_ne _ _ _ _ (by omega)
    · intro c hc
      have hge : ¬ k.toNat < b.elems.length := by omega
      simp only [jsSet, hidx, if_true, jsSlice, writeElem, hge, if_false,
        List.mem_append]
      exact Or.inl (Or.inl hc)
  · refine ⟨?_, ?_, ?_, ?_⟩
    · simp [jsGet, jsSet, hidx, jsSlice]
    · intro j hj
      by_cases hj' : isArrayIndex j = true
      · simp [jsGet, jsSet, hidx, hj', jsSlice, Squares.at]
      · have hne : (j == k) = false := by simpa using hj
        simp [jsGet, jsSet, hidx, hj', jsSlice, hprops, List.lookup, hne]
    · intro n _
      simp [jsSet, hidx, jsSlice, Squares.at]
    · intro c hc
      simpa [jsSet, hidx, jsSlice] using hc

/-- C8, as stated, fails: neither handler checks its argument. From the
initial state `jumpTo(5)` and `jumpTo(-1)` move the pointer outside the
one-entry history (after which `currentSquares` is `undefined` and the
render throws), and `playMove(9)` and `playMove(-1)` are accepted: each
appends a snapshot (with an `X` written at slot 9, at property `-1`) and
advances the pointer to 1. -/
theorem out_of_range_not_rejected :
    GameState.initial.history.length = 1 ∧
    (jumpTo GameState.initial 5).currentMove = 5 ∧
    jumpTo GameState.initial 5 ≠ GameState.initial ∧
    (jumpTo GameState.initial (-1)).currentMove = -1 ∧
    jumpTo GameState.initial (-1) ≠ GameState.initial ∧
    currentSquares (jumpTo GameState.initial 5) = none ∧
    step GameState.initial (Op.jump 5) = none ∧
    playMove GameState.initial 9 =
      some { history := [emptyBoard,
               ⟨[Cell.null, Cell.null, Cell.null, Cell.null, Cell.null, Cell.null,
                 Cell.null, Cell.null, Cell.null, Cell.mark Mark.X], []⟩],
             currentMove := 1, scores := { x := 0, o := 0, ties := 0 } } ∧
    playMove GameState.initial 9 ≠ some GameState.initial ∧
    playMove GameState.initial (-1) =
      some { history := [emptyBoard,
               ⟨[Cell.null, Cell.null, Cell.null, Cell.null, Cell.null, Cell.null,
                 Cell.null, Cell.null, Cell.null], [(-1, Mark.X)]⟩],
             currentMove := 1, scores := { x := 0, o := 0, ties := 0 } } ∧
    playMove GameState.initial (-1) ≠ some GameState.initial := by
  decide

/-- C8, amended: in a state viewing a 9-cell board `b` (pointer in range),
for every integer `k`: `jumpTo(k)` leaves history and scores unchanged and
sets the pointer to `k`; for `k` outside `[0, history.length - 1]` the state
changes, `currentSquares` becomes `undefined`, and the render that follows
throws, as would any click. `playMove(k)` with `k` outside `0..8` is a no-op
when `calculateWinner b` is not null; when it is null the click is accepted
like any other: the new history is the first `currentMove + 1` snapshots
followed by `nextBoard`, the pointer advances by one, key `k` of `nextBoard`
holds the mover's mark (`X` for an even pointer, `O` for an odd one), every
other key reads as in `b`, `calculateWinner nextBoard` is null and the
scores are unchanged. -/
theorem out_of_range_behaviour (g : GameState) (k : Int) (b : Squares)
    (hb : currentSquares g = some b)
    (hlen : b.elems.length = 9) (hprops : b.props = []) :
    ((jumpTo g k).history = g.history ∧ (jumpTo g k).scores = g.scores ∧
      (jumpTo g k).currentMove = k) ∧
    ((k < 0 ∨ (g.history.length : Int) ≤ k) →
      jumpTo g k ≠ g ∧ currentSquares (jumpTo g k) = none ∧
      step g (Op.jump k) = none ∧ ∀ i : Int, playMove (jumpTo g k) i = none) ∧
    ((k < 0 ∨ 8 < k) → calculateWinner b ≠ Outcome.null → playMove g k = some g) ∧
    ((k < 0 ∨ 8 < k) → calculateWinner b = Outcome.null →
      ∃ g' nextBoard,
        playMove g k = some g' ∧ g' ≠ g ∧
        g' = handlePlay g (jsSet (jsSlice b) k (markToPlay g)) ∧
        g'.history = g.history.take (g.currentMove.toNat + 1) ++ [nextBoard] ∧
        g'.currentMove = g.currentMove + 1 ∧
        g'.scores = g.scores ∧
        jsGet nextBoard k = Cell.mark (if g.currentMove % 2 = 0 then Mark.X else Mark.O) ∧
        (∀ j : Int, j ≠ k → jsGet nextBoard j = jsGet b j) ∧
        calculateWinner nextBoard = Outcome.null) := by
  obtain ⟨hlo, hhi, -⟩ := histGet_eq_some hb
  refine ⟨⟨rfl, rfl, rfl⟩, ?_, ?_, ?_⟩
  · intro hk
    have hcur := currentSquares_jumpTo_out_of_range g k hk
    refine ⟨?_, hcur, ?_, ?_⟩
    · intro heq
      have : (jumpTo g k).currentMove = g.currentMove := by rw [heq]
      simp only [jumpTo] at this
      omega
    · simp [step, rendered, hcur]
    · intro i
      simp [playMove, hcur]
  · intro _ hw
    have hr : handleClick (xIsNext g) b k = none := handleClick_reject _ _ _ (Or.inr hw)
    simp [playMove, hb, hr]
  · intro hk hw
    obtain ⟨hself, hother, hslots, hmem⟩ :=
      jsSet_out_of_range b k (markToPlay g) hlen hprops hk
    have hfalsy : (jsGet b k).truthy = false := by
      unfold jsGet
      split
      · next hidx =>
        have hge : b.elems.length ≤ k.toNat := by
          simp only [isArrayIndex, Bool.and_eq_true, decide_eq_true_eq] at hidx
          omega
        simp only [Squares.at, List.getD_eq_getElem?_getD]
        rw [List.getElem?_eq_none hge]
        rfl
      · rw [hprops]
        rfl
    have hclick := handleClick_accept (xIsNext g) b k hfalsy hw
    rw [xIsNext_mark] at hclick
    have hplay : playMove g k = some (handlePlay g (jsSet (jsSlice b) k (markToPlay g))) := by
      simp [playMove, hb, hclick]
    have hcm := handlePlay_currentMove g (jsSet (jsSlice b) k (markToPlay g)) hlo hhi
    have hnext : calculateWinner (jsSet (jsSlice b) k (markToPlay g)) = Outcome.null :=
      calculateWinner_null_of_extends hw hslots hmem
    refine ⟨_, jsSet (jsSlice b) k (markToPlay g), hplay, ?_, rfl,
      handlePlay_history g _ hlo, hcm, ?_, hself, hother, hnext⟩
    · intro heq
      rw [heq] at hcm
      omega
    · simp [handlePlay, hnext]

/-- Witness for C8 amended: in the initial state, with `k = 9`. -/
theorem out_of_range_behaviour_witness :
    ((jumpTo GameState.initial 9).history = GameState.initial.history ∧
      (jumpTo GameState.initial 9).scores = GameState.initial.scores ∧
      (jumpTo GameState.initial 9).currentMove = 9) ∧
    (jumpTo GameState.initial 9 ≠ GameState.initial ∧
      currentSquares (jumpTo GameState.initial 9) = none ∧
      step GameState.initial (Op.jump 9) = none ∧
      ∀ i : Int, playMove (jumpTo GameState.initial 9) i = none) ∧
    (∃ g' nextBoard,
      playMove GameState.initial 9 = some g' ∧ g' ≠ GameState.initial ∧
      g' = handlePlay GameState.initial
        (jsSet (jsSlice emptyBoard) 9 (markToPlay GameState.initial)) ∧
      g'.history = GameState.initial.history.take
        (GameState.initial.currentMove.toNat + 1) ++ [nextBoard] ∧
      g'.currentMove = GameState.initial.currentMove + 1 ∧
      g'.scores = GameState.initial.scores ∧
      jsGet nextBoard 9 =
        Cell.mark (if GameState.initial.currentMove % 2 = 0 then Mark.X else Mark.O) ∧
      (∀ j : Int, j ≠ 9 → jsGet nextBoard j = jsGet emptyBoard j) ∧
      calculateWinner nextBoard = Outcome.null) :=
  have h := out_of_range_behaviour GameState.initial 9 emptyBoard
    (by decide) (by decide) (by decide)
  ⟨h.1, h.2.1 (by decide), h.2.2.2 (by decide) (by decide)⟩

/-! ## Reachable states -/

theorem isBoard_emptyBoard : isBoard emptyBoard := by
  refine ⟨rfl, rfl, ?_⟩
  intro c hc
  simp only [emptyBoard, List.mem_replicate] at hc
  rw [hc.2]
  exact fun h => by cases h

theorem isBoard_at {b : Squares} (hb : isBoard b) {j : Nat} (hj : j < 9) :
    b.at j ≠ Cell.undefined := by
  obtain ⟨hlen, -, hall⟩ := hb
  have hlt : j < b.elems.length := by omega
  have : b.at j = b.elems[j] := by
    simp [Squares.at, List.getElem?_eq_getElem hlt]
  rw [this]
  exact hall _ (List.getElem_mem _)

/-- What `handleClick` hands to `handlePlay` for a cell in `0..8` of a
9-cell board: a 9-cell board with one more mark. -/
theorem handleClick_board {xNext : Bool} {b next : Squares} {i : Int}
    (hb : isBoard b) (hi0 : 0 ≤ i) (hi8 : i ≤ 8)
    (h : handleClick xNext b i = some next) :
    calculateWinner b = Outcome.null ∧ isBoard next ∧ oneMarkAdded b next := by
  obtain ⟨hfalsy, hnull, hnext⟩ := handleClick_some h
  have hidx : isArrayIndex i = true := by simp [isArrayIndex]; omega
  have hj : i.toNat < 9 := by omega
  have hlt : i.toNat < b.elems.length := by rw [hb.1]; exact hj
  have hget : jsGet b i = b.at i.toNat := by simp [jsGet, hidx]
  have hcell : b.at i.toNat = Cell.null := by
    have hne := isBoard_at hb hj
    rw [hget] at hfalsy
    cases hc : b.at i.toNat with
    | undefined => exact absurd hc hne
    | null => rfl
    | mark m => rw [hc] at hfalsy; cases hfalsy
  have helems : next.elems = b.elems.set i.toNat
      (Cell.mark (if xNext then Mark.X else Mark.O)) := by
    rw [hnext]
    simp [jsSet, hidx, jsSlice, writeElem, hlt]
  have hprops : next.props = [] := by
    rw [hnext]
    simp [jsSet, hidx, jsSlice]
  refine ⟨hnull, ⟨?_, hprops, ?_⟩, i.toNat, hj, hcell,
    ⟨if xNext then Mark.X else Mark.O, ?_⟩, ?_⟩
  · rw [helems, List.length_set]; exact hb.1
  · intro c hc
    rw [helems] at hc
    rcases List.mem_or_eq_of_mem_set hc with hc | hc
    · exact hb.2.2 c hc
    · rw [hc]; exact fun h => by cases h
  · simp [Squares.at, helems, List.getElem?_set, hlt]
  · intro k hk
    simp [Squares.at, helems, List.getElem?_set, Ne.symm hk]

theorem getElem?_take_append_singleton (l : List Squares) (x : Squares) (n k : Nat)
    (hn : n ≤ l.length) :
    (l.take n ++ [x])[k]? = if k < n then l[k]? else if k = n then some x else none := by
  have hlen : (l.take n).length = n := by simp [List.length_take]; omega
  split
  · next h =>
    rw [List.getElem?_append_left (by omega), List.getElem?_take_of_lt h]
  · next h =>
    rw [List.getElem?_append_right (by omega), hlen]
    split
    · next h2 => simp [h2]
    · next h2 =>
      have : k - n ≠ 0 := by omega
      rw [List.getElem?_eq_none (by simp; omega)]

theorem inv_initial : Inv GameState.initial := by
  refine ⟨rfl, by decide, by decide, ?_, ?_⟩
  · intro b hb
    simp only [GameState.initial, List.mem_singleton] at hb
    rw [hb]
    exact isBoard_emptyBoard
  · intro n b b' _ h1
    simp [GameState.initial] at h1

theorem inv_resetGame (g : GameState) : Inv (resetGame g) := by
  refine ⟨rfl, le_refl _, by simp [resetGame], ?_, ?_⟩
  · intro b hb
    simp only [resetGame, List.mem_singleton] at hb
    rw [hb]
    exact isBoard_emptyBoard
  · intro n b b' _ h1
    simp [resetGame] at h1

theorem inv_jumpTo {g : GameState} (h : Inv g) (move : Int)
    (h0 : 0 ≤ move) (h1 : move < g.history.length) : Inv (jumpTo g move) :=
  ⟨h.1, h0, h1, h.2.2.2.1, h.2.2.2.2⟩

theorem inv_currentSquares {g : GameState} (h : Inv g) :
    ∃ b, currentSquares g = some b ∧ g.history[g.currentMove.toNat]? = some b ∧ isBoard b := by
  obtain ⟨b, hb⟩ := histGet_in_range g.history g.currentMove h.2.1 h.2.2.1
  have hb2 := (histGet_eq_some hb).2.2
  exact ⟨b, hb, hb2, h.2.2.2.1 b (List.getElem?_mem hb2)⟩

theorem inv_handlePlay {g : GameState} (h : Inv g) {b next : Squares} {i : Int}
    (hb : currentSquares g = some b) (hi0 : 0 ≤ i) (hi8 : i ≤ 8)
    (hclick : handleClick (xIsNext g) b i = some next) : Inv (handlePlay g next) := by
  obtain ⟨h0, hlo, hhi, hboards, hsteps⟩ := h
  obtain ⟨-, -, hcur⟩ := histGet_eq_some hb
  have hbb : isBoard b := hboards b (List.getElem?_mem hcur)
  obtain ⟨hnull, hnb, hadd⟩ := handleClick_board hbb hi0 hi8 hclick
  have hn : g.currentMove.toNat + 1 ≤ g.history.length := by omega
  have hhist := handlePlay_history g next hlo
  have hcm := handlePlay_currentMove g next hlo hhi
  refine ⟨?_, ?_, ?_, ?_, ?_⟩
  · rw [hhist, getElem?_take_append_singleton _ _ _ _ hn]
    simpa using h0
  · omega
  · rw [hcm, hhist]
    simp only [List.length_append, List.length_take, List.length_singleton]
    omega
  · intro c hc
    rw [hhist, List.mem_append] at hc
    rcases hc with hc | hc
    · exact hboards c (List.mem_of_mem_take hc)
    · rw [List.mem_singleton] at hc
      rw [hc]; exact hnb
  · intro n c c' hc hc'
    rw [hhist, getElem?_take_append_singleton _ _ _ _ hn] at hc hc'
    by_cases hlt : n + 1 < g.currentMove.toNat + 1
    · rw [if_pos (by omega)] at hc
      rw [if_pos hlt] at hc'
      exact hsteps n c c' hc hc'
    · rw [if_neg hlt] at hc'
      split at hc'
      · next heq =>
        have hnn : n = g.currentMove.toNat := by omega
        rw [if_pos (by omega), hnn, hcur] at hc
        cases hc
        cases hc'
        exact ⟨hnull, hadd⟩
      · cases hc'

theorem inv_playMove {g g' : GameState} (h : Inv g) {i : Int}
    (hi0 : 0 ≤ i) (hi8 : i ≤ 8) (hplay : playMove g i = some g') : Inv g' := by
  obtain ⟨b, hb, -, -⟩ := inv_currentSquares h
  unfold playMove at hplay
  rw [hb] at hplay
  simp only [] at hplay
  cases hclick : handleClick (xIsNext g) b i with
  | none =>
    rw [hclick] at hplay
    cases hplay
    exact h
  | some next =>
    rw [hclick] at hplay
    cases hplay
    exact inv_handlePlay h hb hi0 hi8 hclick

theorem reachable_inv {g : GameState} (hr : Reachable g) : Inv g := by
  induction hr with
  | init => exact inv_initial
  | play g g' i _ hi0 hi8 hplay ih => exact inv_playMove ih hi0 hi8 hplay
  | jump g move _ h0 h1 ih => exact inv_jumpTo ih move h0 h1
  | reset g _ _ => exact inv_resetGame g

theorem playMove_isSome_of_current {g : GameState} {b : Squares}
    (hb : currentSquares g = some b) (i : Int) : ∃ g', playMove g i = some g' := by
  unfold playMove
  rw [hb]
  simp only []
  cases handleClick (xIsNext g) b i with
  | none => exact ⟨_, rfl⟩
  | some next => exact ⟨_, rfl⟩

/-- C9: every state reachable from the initial state by clicks on cells
`0..8`, jumps in range and resets is well formed: the history is non-empty
and starts with the all-null 9-cell board, the pointer satisfies
`0 ≤ currentMove < history.length`, and each snapshot `history[n + 1]`
differs from `history[n]` in exactly one cell, `null` before and a mark
after. Every snapshot has nine cells, and a click in such a state always
returns a state. -/
theorem reachable_wellFormed (g : GameState) (hr : Reachable g) :
    g.history ≠ [] ∧
    g.history[0]? = some emptyBoard ∧
    0 ≤ g.currentMove ∧ g.currentMove < g.history.length ∧
    (∀ b ∈ g.history, b.elems.length = 9) ∧
    (∀ (n : Nat) (b b' : Squares), g.history[n]? = some b → g.history[n + 1]? = some b' →
      ∃ j : Nat, j < 9 ∧ b.at j = Cell.null ∧ (∃ m, b'.at j = Cell.mark m) ∧
        ∀ k : Nat, k ≠ j → b'.at k = b.at k) ∧
    (∀ i : Int, ∃ g', playMove g i = some g') := by
  have h := reachable_inv hr
  obtain ⟨b, hb, -, -⟩ := inv_currentSquares h
  refine ⟨?_, h.1, h.2.1, h.2.2.1, fun b hb => (h.2.2.2.1 b hb).1,
    fun n b b' hn hn' => (h.2.2.2.2 n b b' hn hn').2, playMove_isSome_of_current hb⟩
  intro hnil
  have := h.1
  rw [hnil] at this
  cases this

theorem step_play_eq_some {g g1 : GameState} {i : Int}
    (h : step g (Op.play i) = some g1) : playMove g i = some g1 := by
  simp only [step] at h
  cases hp : playMove g i with
  | none => rw [hp] at h; cases h
  | some g2 =>
    rw [hp] at h
    simp only [Option.bind, rendered] at h
    split at h
    · cases h; rfl
    · cases h

theorem reachable_plays {g : GameState} (hr : Reachable g) :
    ∀ (is : List Int) (g' : GameState), (∀ i ∈ is, 0 ≤ i ∧ i ≤ 8) →
      run g (plays is) = some g' → Reachable g' := by
  intro is
  induction is generalizing g with
  | nil =>
    intro g' _ h
    simp only [plays, List.map_nil, run] at h
    cases h
    exact hr
  | cons i is ih =>
    intro g' hall h
    simp only [plays, List.map_cons, run] at h
    cases hs : step g (Op.play i) with
    | none => rw [hs] at h; cases h
    | some g1 =>
      rw [hs] at h
      have hi := hall i (List.mem_cons_self _ _)
      exact ih (Reachable.play g g1 i hr hi.1 hi.2 (step_play_eq_some hs)) g'
        (fun j hj => hall j (List.mem_cons_of_mem _ hj)) h

/-- Witness for C9: the state of scenario C (the win of scenario A viewed
at move 2). -/
theorem reachable_wellFormed_witness :
    (jumpTo scenarioA 2).history ≠ [] ∧
    (jumpTo scenarioA 2).history[0]? = some emptyBoard ∧
    0 ≤ (jumpTo scenarioA 2).currentMove ∧
    (jumpTo scenarioA 2).currentMove < (jumpTo scenarioA 2).history.length ∧
    (∀ b ∈ (jumpTo scenarioA 2).history, b.elems.length = 9) ∧
    (∀ (n : Nat) (b b' : Squares), (jumpTo scenarioA 2).history[n]? = some b →
      (jumpTo scenarioA 2).history[n + 1]? = some b' →
      ∃ j : Nat, j < 9 ∧ b.at j = Cell.null ∧ (∃ m, b'.at j = Cell.mark m) ∧
        ∀ k : Nat, k ≠ j → b'.at k = b.at k) ∧
    (∀ i : Int, ∃ g', playMove (jumpTo scenarioA 2) i = some g') :=
  reachable_wellFormed (jumpTo scenarioA 2)
    (Reachable.jump scenarioA 2
      (reachable_plays Reachable.init [0, 1, 3, 4, 6] scenarioA (by decide) run_scenarioA)
      (by decide) (by decide))

/-! ## One winner on reachable boards -/

theorem calculateWinner_null_no_line {b : Squares} (h : calculateWinner b = Outcome.null) :
    ∀ l ∈ lines, ∀ m, ¬ lineFilled b m l := by
  rw [← scanLines_eq_none]
  unfold calculateWinner calculateWinnerOn at h
  cases hs : scanLines b lines with
  | none => rfl
  | some m => rw [hs] at h; cases h

theorem filled_after_add {b b' : Squares}
    (hnone : ∀ l ∈ lines, ∀ m, ¬ lineFilled b m l) (hadd : oneMarkAdded b b') :
    ∃ m0, ∀ l ∈ lines, ∀ m, lineFilled b' m l → m = m0 := by
  obtain ⟨j, -, -, ⟨m0, hm0⟩, hsame⟩ := hadd
  refine ⟨m0, ?_⟩
  intro l hl m hf
  obtain ⟨h1, h2, h3⟩ := hf
  by_cases e1 : l.1 = j
  · rw [e1, hm0] at h1
    cases h1
    rfl
  by_cases e2 : l.2.1 = j
  · rw [e2, hm0] at h2
    cases h2
    rfl
  by_cases e3 : l.2.2 = j
  · rw [e3, hm0] at h3
    cases h3
    rfl
  exfalso
  apply hnone l hl m
  exact ⟨by rw [← hsame _ e1]; exact h1, by rw [← hsame _ e2]; exact h2,
    by rw [← hsame _ e3]; exact h3⟩

theorem emptyBoard_no_line : ∀ l ∈ lines, ∀ m, ¬ lineFilled emptyBoard m l := by
  decide

theorem inv_single_mark {g : GameState} (h : Inv g) {b : Squares} (hb : b ∈ g.history) :
    ∃ m0, ∀ l ∈ lines, ∀ m, lineFilled b m l → m = m0 := by
  obtain ⟨n, hn⟩ := List.getElem?_of_mem hb
  cases n with
  | zero =>
    rw [h.1] at hn
    cases hn
    exact ⟨Mark.X, fun l hl m hf => absurd hf (emptyBoard_no_line l hl m)⟩
  | succ k =>
    have hk : k < g.history.length := by
      have := (List.getElem?_eq_some.1 hn).1
      omega
    obtain ⟨hnull, hadd⟩ := h.2.2.2.2 k _ b (List.getElem?_eq_getElem hk) hn
    exact filled_after_add (calculateWinner_null_no_line hnull) hadd

/-- C10: on every board stored in the history of a reachable state, no two
lines are filled with different marks (there is no line of three `X`
together with a line of three `O`), and `calculateWinner` gives the same
result whatever the order in which the eight lines are checked. -/
theorem reachable_single_winner (g : GameState) (hr : Reachable g)
    (b : Squares) (hb : b ∈ g.history) :
    ¬ ((∃ l ∈ lines, lineFilled b Mark.X l) ∧ (∃ l ∈ lines, lineFilled b Mark.O l)) ∧
    ∀ table : List (Nat × Nat × Nat), table.Perm lines →
      calculateWinnerOn table b = calculateWinner b := by
  obtain ⟨m0, hm0⟩ := inv_single_mark (reachable_inv hr) hb
  constructor
  · rintro ⟨⟨l, hl, hf⟩, ⟨l', hl', hf'⟩⟩
    have h1 := hm0 l hl _ hf
    have h2 := hm0 l' hl' _ hf'
    rw [← h1] at h2
    cases h2
  · intro table hperm
    unfold calculateWinner calculateWinnerOn
    cases hs : scanLines b lines with
    | none =>
      have hnone := (scanLines_eq_none b lines).1 hs
      have : scanLines b table = none :=
        (scanLines_eq_none b table).2 (fun l hl => hnone l (hperm.subset hl))
      rw [this]
    | some m =>
      obtain ⟨l, hl, hf⟩ := scanLines_eq_some b m lines hs
      cases ht : scanLines b table with
      | none =>
        exact absurd hf ((scanLines_eq_none b table).1 ht l (hperm.symm.subset hl) m)
      | some m' =>
        obtain ⟨l', hl', hf'⟩ := scanLines_eq_some b m' table ht
        have h1 := hm0 l hl _ hf
        have h2 := hm0 l' (hperm.subset hl') _ hf'
        rw [h1, h2]

/-- Witness for C10: the winning board of scenario A, with the lines checked
in reverse order. -/
theorem reachable_single_winner_witness :
    ¬ ((∃ l ∈ lines, lineFilled
          ⟨[Cell.mark Mark.X, Cell.mark Mark.O, Cell.null, Cell.mark Mark.X, Cell.mark Mark.O,
            Cell.null, Cell.mark Mark.X, Cell.null, Cell.null], []⟩ Mark.X l) ∧
       (∃ l ∈ lines, lineFilled
          ⟨[Cell.mark Mark.X, Cell.mark Mark.O, Cell.null, Cell.mark Mark.X, Cell.mark Mark.O,
            Cell.null, Cell.mark Mark.X, Cell.null, Cell.null], []⟩ Mark.O l)) ∧
    calculateWinnerOn lines.reverse
        ⟨[Cell.mark Mark.X, Cell.mark Mark.O, Cell.null, Cell.mark Mark.X, Cell.mark Mark.O,
          Cell.null, Cell.mark Mark.X, Cell.null, Cell.null], []⟩ =
      calculateWinner
        ⟨[Cell.mark Mark.X, Cell.mark Mark.O, Cell.null, Cell.mark Mark.X, Cell.mark Mark.O,
          Cell.null, Cell.mark Mark.X, Cell.null, Cell.null], []⟩ :=
  have h := reachable_single_winner scenarioA
    (reachable_plays Reachable.init [0, 1, 3, 4, 6] scenarioA (by decide) run_scenarioA)
    ⟨[Cell.mark Mark.X, Cell.mark Mark.O, Cell.null, Cell.mark Mark.X, Cell.mark Mark.O,
      Cell.null, Cell.mark Mark.X, Cell.null, Cell.null], []⟩ (by decide)
  ⟨h.1, h.2 lines.reverse (List.reverse_perm lines)⟩

/-! ## Scoring along a sequence of operations -/

theorem run_append (g : GameState) (xs ys : List Op) :
    run g (xs ++ ys) = (run g xs).bind (fun g1 => run g1 ys) := by
  induction xs generalizing g with
  | nil => rfl
  | cons op xs ih =>
    simp only [List.cons_append, run]
    cases step g op with
    | none => rfl
    | some g1 => exact ih g1

theorem updateScores_total (w : Outcome) (s : Scores) :
    s.total ≤ (updateScores w s).total ∧ (updateScores w s).total ≤ s.total + 1 := by
  cases w with
  | null => simp only [updateScores]; omega
  | draw =>
    have := addOne_bounds s.ties
    simp only [updateScores, Scores.total]; omega
  | mark m =>
    cases m with
    | X =>
      have := addOne_bounds s.x
      simp only [updateScores, Scores.total]; omega
    | O =>
      have := addOne_bounds s.o
      simp only [updateScores, Scores.total]; omega

theorem currentSquares_handlePlay (g : GameState) (next : Squares)
    (h0 : 0 ≤ g.currentMove) (h1 : g.currentMove < g.history.length) :
    currentSquares (handlePlay g next) = some next := by
  have hcm := handlePlay_currentMove g next h0 h1
  have hhist := handlePlay_history g next h0
  unfold currentSquares histGet
  rw [hcm, if_neg (by omega), hhist,
    getElem?_take_append_singleton _ _ _ _ (by omega)]
  have e : (g.currentMove + 1).toNat = g.currentMove.toNat + 1 := by omega
  rw [e]
  simp

/-- A click in a state viewing board `b` returns a state: either the same
state, or (only when `b` is undecided) the state viewing the new board, with
the scores updated by that board's outcome. -/
theorem playMove_cases (g : GameState) (b : Squares) (hb : currentSquares g = some b)
    (i : Int) :
    playMove g i = some g ∨
    (calculateWinner b = Outcome.null ∧
      ∃ next, playMove g i = some (handlePlay g next) ∧
        currentSquares (handlePlay g next) = some next) := by
  obtain ⟨hlo, hhi, -⟩ := histGet_eq_some hb
  unfold playMove
  rw [hb]
  simp only []
  cases hclick : handleClick (xIsNext g) b i with
  | none => exact Or.inl rfl
  | some next =>
    exact Or.inr ⟨(handleClick_some hclick).2.1, next, rfl,
      currentSquares_handlePlay g next hlo hhi⟩

theorem handlePlay_scores (g : GameState) (next : Squares) :
    (calculateWinner next = Outcome.null → (handlePlay g next).scores = g.scores) ∧
    (g.scores.total ≤ (handlePlay g next).scores.total ∧
      (handlePlay g next).scores.total ≤ g.scores.total + 1) := by
  constructor
  · intro h
    simp [handlePlay, h]
  · simp only [handlePlay]
    split
    · exact updateScores_total _ _
    · omega

theorem step_play_of_current (g : GameState) (b : Squares) (hb : currentSquares g = some b)
    (i : Int) : step g (Op.play i) = playMove g i := by
  simp only [step]
  rcases playMove_cases g b hb i with h | ⟨-, next, h, hcur⟩
  · rw [h]
    simp [rendered, hb]
  · rw [h]
    simp [rendered, hcur]

theorem run_plays_scores :
    ∀ (is : List Int) (g : GameState) (b : Squares), currentSquares g = some b →
      ∃ g' b', run g (plays is) = some g' ∧ currentSquares g' = some b' ∧
        (calculateWinner b ≠ Outcome.null → g' = g) ∧
        (g'.scores = g.scores ∨
          (calculateWinner b' ≠ Outcome.null ∧ g.scores.total ≤ g'.scores.total ∧
            g'.scores.total ≤ g.scores.total + 1)) := by
  intro is
  induction is with
  | nil =>
    intro g b hb
    exact ⟨g, b, rfl, hb, fun _ => rfl, Or.inl rfl⟩
  | cons i is ih =>
    intro g b hb
    simp only [plays, List.map_cons, run, step_play_of_current g b hb i]
    rcases playMove_cases g b hb i with hrej | ⟨hnull, next, hacc, hcur⟩
    · rw [hrej]
      exact ih g b hb
    · rw [hacc]
      obtain ⟨g', b', hrun, hcur', hfix, hsc⟩ := ih (handlePlay g next) next hcur
      refine ⟨g', b', hrun, hcur', fun h => absurd hnull h, ?_⟩
      have hs := handlePlay_scores g next
      by_cases hw : calculateWinner next = Outcome.null
      · rw [hs.1 hw] at hsc
        exact hsc
      · have hg' := hfix hw
        rw [hg'] at hcur' ⊢
        rw [hcur] at hcur'
        cases hcur'
        exact Or.inr ⟨hw, hs.2⟩

/-- C6, as stated, fails: after the winning sequence 0, 1, 3, 4, 6 from the
initial state (outcome `X`, scores `{x: 1, o: 0, ties: 0}`), the in-range
`jumpTo(2)` followed by the clicks 3, 4, 6 wins again and scores again
without any reset: the scores end as `{x: 2, o: 0, ties: 0}`, so
`x + o + ties` has grown by 2. -/
theorem scoring_fires_again_after_jump :
    run GameState.initial (plays [0, 1, 3, 4, 6]) = some scenarioA ∧
    (currentSquares scenarioA).map calculateWinner = some (Outcome.mark Mark.X) ∧
    scenarioA.scores = { x := 1, o := 0, ties := 0 } ∧
    (0 : Int) ≤ 2 ∧ (2 : Int) < scenarioA.history.length ∧
    (run GameState.initial
        (plays [0, 1, 3, 4, 6] ++ [Op.jump 2] ++ plays [3, 4, 6])).map GameState.scores =
      some { x := 2, o := 0, ties := 0 } ∧
    (run GameState.initial
        (plays [0, 1, 3, 4, 6] ++ [Op.jump 2] ++ plays [3, 4, 6])).map
          (fun g => g.scores.total) = some 2 := by
  decide

/-- C6, amended: from every state whose pointer is in range (in particular
the initial state and the state just after a reset), every sequence of
clicks with no `jumpTo` and no reset in between returns a state in which
`x + o + ties` has grown by at most 1; once the board viewed after some
prefix of the sequence has a non-null outcome, the remaining clicks change
nothing at all; and `jumpTo` by itself never changes the scores. -/
theorem scores_once_without_jump (g : GameState) (b : Squares)
    (hb : currentSquares g = some b) (is : List Int) :
    ∃ g', run g (plays is) = some g' ∧
      g.scores.total ≤ g'.scores.total ∧
      g'.scores.total ≤ g.scores.total + 1 ∧
      (∀ (pre post : List Int) (g1 : GameState) (b1 : Squares), is = pre ++ post →
        run g (plays pre) = some g1 → currentSquares g1 = some b1 →
        calculateWinner b1 ≠ Outcome.null → g' = g1) ∧
      (∀ move : Int, (jumpTo g' move).scores = g'.scores) := by
  obtain ⟨g', b', hrun, -, -, hsc⟩ := run_plays_scores is g b hb
  refine ⟨g', hrun, ?_, ?_, ?_, fun _ => rfl⟩
  · rcases hsc with h | ⟨-, h, -⟩
    · rw [h]
    · exact h
  · rcases hsc with h | ⟨-, -, h⟩
    · rw [h]; omega
    · exact h
  · intro pre post g1 b1 hsplit hpre hcur hw
    obtain ⟨g2, -, hrun2, -, hfix, -⟩ := run_plays_scores post g1 b1 hcur
    have h2 : run g (plays is) = some g2 := by
      rw [hsplit]
      simp only [plays, List.map_append] at hpre hrun2 ⊢
      rw [run_append, hpre]
      exact hrun2
    rw [hrun] at h2
    cases h2
    exact hfix hw

/-- Witness for C6 amended: from the initial state, the clicks 0, 1, 3, 4, 6
followed by 2, 5, 7 end in the state of scenario A. -/
theorem scores_once_without_jump_witness :
    ∃ g', run GameState.initial (plays [0, 1, 3, 4, 6, 2, 5, 7]) = some g' ∧
      g' = scenarioA ∧ g'.scores.total ≤ 1 :=
  (scores_once_without_jump GameState.initial emptyBoard (by decide)
      [0, 1, 3, 4, 6, 2, 5, 7]).imp
    (fun _ h => ⟨h.1, h.2.2.2.1 [0, 1, 3, 4, 6] [2, 5, 7] scenarioA
        ⟨[Cell.mark Mark.X, Cell.mark Mark.O, Cell.null, Cell.mark Mark.X, Cell.mark Mark.O,
          Cell.null, Cell.mark Mark.X, Cell.null, Cell.null], []⟩
        (by decide) (by decide) (by decide) (by decide), h.2.2.1⟩)

end TicTacToe
